/-
Verification of the summa-solvency Merkle-sum-tree inclusion system.

The development shallowly embeds two layers of the repository:

* the Merkle sum tree and the MST inclusion circuit.  The circuit and tree
  implementation files are not part of the sources given (only their test
  suite is), so these definitions are modelled from the specification
  (sections 3, 4.1, 4.2), with the tests used to settle underdetermined
  points (for example, that the node hash observes the children's balances).
* the backend orchestration (`backend/src/apis/round.rs`), which is given in
  full and is embedded directly, with its external collaborators (csv
  parsing, trusted-setup generation, the chain signer) abstracted as
  function parameters, and Rust panics modelled explicitly.
-/
import Mathlib

set_option maxRecDepth 10000

/-- The order of the scalar field `Fr` of BN254, the field the circuit and
tree operate over (`halo2curves::bn256::Fr`). -/
def P : ℕ := 21888242871839275222246405745257275088548364400416034343698204186575808495617

/-- Field elements, as the prime field of order `P`. -/
abbrev F := ZMod P

instance : Fact (1 < P) := ⟨by norm_num [P]⟩

instance : NeZero P := ⟨by norm_num [P]⟩

/-! ## Data model (spec section 3)

Modelled from the spec: the `MerkleSumTree`, `Entry`, `Node` and
`MerkleProof` types of the `zk_prover` crate, whose implementation files are
not among the given sources (only `circuits/tests.rs` is). -/

/-- Modelled from the spec: a tree node, `{ hash: field element, balances:
ordered sequence of K field elements }`. -/
structure Node (K : ℕ) where
  hash : F
  balances : Fin K → F
deriving DecidableEq

instance (K : ℕ) : Inhabited (Node K) := ⟨⟨0, fun _ => 0⟩⟩

/-- Modelled from the spec: an `Entry` is a user identifier together with an
ordered sequence of `K` unsigned big integers. -/
structure Entry (K : ℕ) where
  username : String
  balances : Fin K → ℕ
deriving DecidableEq

instance (K : ℕ) : Inhabited (Entry K) := ⟨⟨"", fun _ => 0⟩⟩

/-- Modelled from the spec: the hashing used by the tree and circuit
(Poseidon in the source repository) is kept abstract.  `leafHash` hashes an
entry's identity and balances into the leaf hash.  `nodeHash` hashes two
child nodes into the parent hash; it takes the full child nodes (hashes and
balances) as input, as evidenced by the repository's tests
(`test_balance_not_in_range` expects the public root-hash binding to fail
when only a sibling balance is tampered with). -/
structure HashScheme (K : ℕ) where
  leafHash : String → (Fin K → F) → F
  nodeHash : Node K → Node K → F

/-- Modelled from the spec: `big_uint_to_fp`, the conversion of an entry's
unsigned integer balance into a field element. -/
def big_uint_to_fp (n : ℕ) : F := (n : F)

/-- Modelled from the spec: `Entry::compute_leaf`, deriving the leaf node of
an entry: its hash is the leaf hash of identity and balances, its balances
are the entry balances as field elements. -/
def compute_leaf {K : ℕ} (hs : HashScheme K) (e : Entry K) : Node K :=
  { hash := hs.leafHash e.username fun i => big_uint_to_fp (e.balances i)
    balances := fun i => big_uint_to_fp (e.balances i) }

/-- Modelled from the spec: derivation of an internal node from two children:
the hash combines the children and `balances[i] = left.balances[i] +
right.balances[i]` for every asset `i`. -/
def combineNode {K : ℕ} (hs : HashScheme K) (l r : Node K) : Node K :=
  { hash := hs.nodeHash l r
    balances := fun i => l.balances i + r.balances i }

/-- Modelled from the spec: an immutable fixed-depth binary tree of nodes,
built bottom-up; represented by its recursive structure with entries at the
leaves. -/
inductive MTree (K : ℕ) where
  | leaf (e : Entry K)
  | node (l r : MTree K)

/-- Modelled from the spec: the node value carried at the root of (a subtree
of) the tree: leaves hash their entry, internal nodes combine their
children, recomputing the additive sum at every level. -/
def MTree.value {K : ℕ} (hs : HashScheme K) : MTree K → Node K
  | .leaf e => compute_leaf hs e
  | .node l r => combineNode hs (l.value hs) (r.value hs)

/-- The tree is a complete binary tree of the stated depth (`L` levels, with
`2^L` leaves). -/
def MTree.complete {K : ℕ} : MTree K → ℕ → Prop
  | .leaf _, d => d = 0
  | .node l r, d => ∃ d', d = d' + 1 ∧ l.complete d' ∧ r.complete d'

def decCompleteMTree {K : ℕ} : (t : MTree K) → (d : ℕ) → Decidable (t.complete d)
  | .leaf _, d => by unfold MTree.complete; infer_instance
  | .node l r, 0 => .isFalse (by simp [MTree.complete])
  | .node l r, d' + 1 =>
      letI : Decidable (l.complete d') := decCompleteMTree l d'
      letI : Decidable (r.complete d') := decCompleteMTree r d'
      decidable_of_iff (l.complete d' ∧ r.complete d') (by simp [MTree.complete])

instance {K : ℕ} (t : MTree K) (d : ℕ) : Decidable (t.complete d) :=
  decCompleteMTree t d

/-- A value fits the configured byte width `B`: its canonical representative
is below `2^(8·B)`.  This is what the circuit's byte-decomposition range
check enforces. -/
def rangeOk (B : ℕ) (x : F) : Prop := x.val < 2 ^ (8 * B)

instance (B : ℕ) (x : F) : Decidable (rangeOk B x) := by
  unfold rangeOk; infer_instance

/-- Modelled from the spec: the tree was built from valid entries and its
construction succeeded, i.e. every entry balance fits in `B` bytes and every
internal node's summed balance fits in `B` bytes (overflow is a construction
error, so a built tree satisfies this everywhere). -/
def MTree.allInRange {K : ℕ} (hs : HashScheme K) (B : ℕ) : MTree K → Prop
  | .leaf e => ∀ i, e.balances i < 2 ^ (8 * B)
  | .node l r => l.allInRange hs B ∧ r.allInRange hs B ∧
      ∀ i, rangeOk B (((MTree.node l r).value hs).balances i)

def decAllInRangeMTree {K : ℕ} (hs : HashScheme K) (B : ℕ) :
    (t : MTree K) → Decidable (t.allInRange hs B)
  | .leaf e => by unfold MTree.allInRange; infer_instance
  | .node l r =>
    letI : Decidable (l.allInRange hs B) := decAllInRangeMTree hs B l
    letI : Decidable (r.allInRange hs B) := decAllInRangeMTree hs B r
    by unfold MTree.allInRange; infer_instance

instance {K : ℕ} (hs : HashScheme K) (B : ℕ) (t : MTree K) :
    Decidable (t.allInRange hs B) :=
  decAllInRangeMTree hs B t

/-- Modelled from the spec: walking from the leaf at `idx` up to the root of
a depth-`d` tree, recording at each level the sibling node and the bit
(0 = current node is the left child, 1 = current node is the right child),
ordered from the leaf level upward. -/
def MTree.genPath {K : ℕ} (hs : HashScheme K) : MTree K → ℕ → ℕ → List (Node K × F)
  | .leaf _, _, _ => []
  | .node _ _, 0, _ => []
  | .node l r, d + 1, idx =>
      if idx < 2 ^ d then l.genPath hs d idx ++ [(r.value hs, 0)]
      else r.genPath hs d (idx - 2 ^ d) ++ [(l.value hs, 1)]

/-- The node values on the path from the leaf at `idx` (inclusive) to the
root (inclusive), bottom-up; an auxiliary notion used to state that the
circuit recomputes exactly these nodes. -/
def MTree.pathNodes {K : ℕ} (hs : HashScheme K) : MTree K → ℕ → ℕ → List (Node K)
  | .leaf e, _, _ => [compute_leaf hs e]
  | .node l r, 0, _ => [(MTree.node l r).value hs]
  | .node l r, d + 1, idx =>
      if idx < 2 ^ d then l.pathNodes hs d idx ++ [(MTree.node l r).value hs]
      else r.pathNodes hs d (idx - 2 ^ d) ++ [(MTree.node l r).value hs]

/-- Modelled from the spec: `get_entry(index)`, failing if the index is out
of range. -/
def MTree.getEntry {K : ℕ} : MTree K → ℕ → ℕ → Option (Entry K)
  | .leaf e, 0, idx => if idx = 0 then some e else none
  | .leaf _, _ + 1, _ => none
  | .node _ _, 0, _ => none
  | .node l r, d + 1, idx =>
      if idx < 2 ^ d then l.getEntry d idx else r.getEntry d (idx - 2 ^ d)

/-- Modelled from the spec: a `MerkleProof`: `{ leaf, siblings (L nodes),
path_indices (L bits), root }`, generated for one leaf index. -/
structure MerkleProofM (K : ℕ) where
  leaf : Node K
  siblings : List (Node K)
  path_indices : List F
  root : Node K

/-- Modelled from the spec: `generate_proof(index)`, which walks from the
leaf at `index` to the root recording siblings and direction bits, and fails
if the index is out of range. -/
def MTree.generateProof {K : ℕ} (hs : HashScheme K) (t : MTree K) (d idx : ℕ) :
    Option (MerkleProofM K) :=
  if idx < 2 ^ d then
    some { leaf := (t.pathNodes hs d idx).getD 0 default
           siblings := (t.genPath hs d idx).map Prod.fst
           path_indices := (t.genPath hs d idx).map Prod.snd
           root := t.value hs }
  else none

/-! ## The inclusion circuit (spec section 4.2)

Modelled from the spec: `MstInclusionCircuit` and its constraint system.
The constraint classes and their evaluation by the mock prover are taken
from section 4.2 of the spec; the witness field names (`entry`,
`path_element_hashes`, `path_element_balances`, `path_indices`) and the
presence of a stored root in the witness are fixed by the test suite in
`src/zk_prover/src/circuits/tests.rs` (which mutates those fields directly
and expects the public inputs to stay at the original root after the
witness path is tampered with). -/

/-- Modelled from the spec: the witness of one inclusion-circuit instance:
the user entry, the sibling hashes, sibling balances and direction bits of
the Merkle proof (leaf level first), and the claimed root. -/
structure MstInclusionCircuit (K : ℕ) where
  entry : Entry K
  path_element_hashes : List F
  path_element_balances : List (Fin K → F)
  path_indices : List F
  root : Node K
deriving DecidableEq

instance (K : ℕ) : Inhabited (MstInclusionCircuit K) :=
  ⟨⟨default, [], [], [], default⟩⟩

/-- Modelled from the spec: `MstInclusionCircuit::init(merkle_proof, entry)`,
loading the witness from a Merkle proof and the corresponding entry. -/
def MstInclusionCircuit.init {K : ℕ} (proof : MerkleProofM K) (e : Entry K) :
    MstInclusionCircuit K :=
  { entry := e
    path_element_hashes := proof.siblings.map Node.hash
    path_element_balances := proof.siblings.map Node.balances
    path_indices := proof.path_indices
    root := proof.root }

/-- The number of levels of the witness path. -/
def MstInclusionCircuit.levels {K : ℕ} (c : MstInclusionCircuit K) : ℕ :=
  c.path_indices.length

/-- The sibling node and direction bit the witness provides at level `m`
(out-of-range levels read as zero; they never arise for well-formed
witnesses). -/
def MstInclusionCircuit.stepAt {K : ℕ} (c : MstInclusionCircuit K) (m : ℕ) :
    Node K × F :=
  (⟨(c.path_element_hashes.get? m).getD 0,
    (c.path_element_balances.get? m).getD fun _ => 0⟩,
   (c.path_indices.get? m).getD 0)

/-- Modelled from the spec: the (hash, balances) pair assignment after the
conditional swap at one level: when the bit is 0 the current node goes left
and the sibling right, otherwise they are swapped, after which the level's
combine recomputes hash and sums. -/
def stepNode {K : ℕ} (hs : HashScheme K) (cur : Node K) (p : Node K × F) : Node K :=
  combineNode hs (if p.2 = 0 then cur else p.1) (if p.2 = 0 then p.1 else cur)

/-- Modelled from the spec: the running (hash, balances) state of the
circuit after `m` levels, starting from the leaf derived from the witness
entry. -/
def stateAt {K : ℕ} (hs : HashScheme K) (c : MstInclusionCircuit K) : ℕ → Node K
  | 0 => compute_leaf hs c.entry
  | m + 1 => stepNode hs (stateAt hs c m) (c.stepAt m)

/-- Modelled from the spec: the boolean constraint on a path index:
`index · (index − 1) = 0`. -/
def boolConstraintOk (b : F) : Prop := b * (b - 1) = 0

instance (b : F) : Decidable (boolConstraintOk b) := by
  unfold boolConstraintOk; infer_instance

/-- Modelled from the spec: the swap (ordering) constraint at one level: the
assigned left/right pair must equal `left = current + bit·(sibling −
current)`, `right = sibling + bit·(current − sibling)`, applied independently
to the hash and to every balance. -/
def swapConstraintOk {K : ℕ} (b : F) (cur sib : Node K) : Prop :=
  (if b = 0 then cur else sib).hash = cur.hash + b * (sib.hash - cur.hash) ∧
  (if b = 0 then sib else cur).hash = sib.hash + b * (cur.hash - sib.hash) ∧
  (∀ i, (if b = 0 then cur else sib).balances i =
      cur.balances i + b * (sib.balances i - cur.balances i)) ∧
  (∀ i, (if b = 0 then sib else cur).balances i =
      sib.balances i + b * (cur.balances i - sib.balances i))

instance {K : ℕ} (b : F) (cur sib : Node K) : Decidable (swapConstraintOk b cur sib) := by
  unfold swapConstraintOk; infer_instance

/-- The externally observable constraint-violation classes of a mock-prover
run, per the taxonomy of spec section 4.2: boolean constraint at a level,
swap constraint at a level, the range check of a level's recomputed sum for
one asset, and the copy (permutation) constraints binding the witness leaf
hash, the computed root hash and the computed root balances to the public
input vector. -/
inductive Violation (K : ℕ) where
  | boolCheck (level : ℕ)
  | swapCheck (level : ℕ)
  | rangeCheck (level : ℕ) (asset : Fin K)
  | leafHashBinding
  | rootHashBinding
  | rootBalanceBinding (asset : Fin K)
deriving DecidableEq

/-- Modelled from the spec: the mock prover's verification of one circuit
instance against a public input vector `inst = [leaf_hash, root_hash,
root_balances[0..K]]`: it reports the list of violated constraints, in a
fixed order (boolean, swap and range checks level by level, then the leaf,
root-hash and root-balance copy constraints).  Verification succeeds exactly
when the list is empty. -/
def mockVerify {K : ℕ} (hs : HashScheme K) (B : ℕ) (c : MstInclusionCircuit K)
    (inst : List F) : List (Violation K) :=
  ((List.range c.levels).filter fun j =>
      decide (¬ boolConstraintOk (c.stepAt j).2)).map .boolCheck
  ++ ((List.range c.levels).filter fun j =>
      decide (¬ swapConstraintOk (c.stepAt j).2 (stateAt hs c j) (c.stepAt j).1)).map
        .swapCheck
  ++ (List.range c.levels).flatMap (fun j =>
      ((List.finRange K).filter fun i =>
          decide (¬ rangeOk B ((stateAt hs c (j + 1)).balances i))).map
        (.rangeCheck j))
  ++ (if inst.get? 0 = some (compute_leaf hs c.entry).hash then []
      else [.leafHashBinding])
  ++ (if inst.get? 1 = some (stateAt hs c c.levels).hash then []
      else [.rootHashBinding])
  ++ ((List.finRange K).filter fun (i : Fin K) =>
      decide (¬ inst.get? (2 + i.val) = some ((stateAt hs c c.levels).balances i))).map
        .rootBalanceBinding

/-- Modelled from the spec: `circuit.instances()`, the public input vector
the prover commits to: exactly `[leaf_hash, root_hash, root_balances[0..K]]`
where the leaf hash is computed from the witness entry and the root values
are the ones stored from the Merkle proof at `init` time. -/
def MstInclusionCircuit.instances {K : ℕ} (hs : HashScheme K)
    (c : MstInclusionCircuit K) : List F :=
  (compute_leaf hs c.entry).hash :: c.root.hash :: List.ofFn c.root.balances

/-- Modelled from the spec: a proof produced by `full_prover`; the opaque
proof bytes are abstracted as the witness the proof was generated from. -/
structure ProofObj (K : ℕ) where
  circuit : MstInclusionCircuit K

/-- Modelled from the spec: `full_prover(params, pk, circuit, instances)`,
abstracted to the data the proof binds. -/
def full_prover {K : ℕ} (c : MstInclusionCircuit K) : ProofObj K := ⟨c⟩

/-- Modelled from the spec: `full_verifier(params, vk, proof, instances)`:
by completeness and soundness of the proof system, it accepts exactly when
the circuit's constraints are all satisfied against the supplied public
inputs. -/
def full_verifier {K : ℕ} (hs : HashScheme K) (B : ℕ) (pf : ProofObj K)
    (inst : List F) : Bool :=
  decide (mockVerify hs B pf.circuit inst = [])

/-- The circuit instance the tests build from a tree and a user index:
`generate_proof(idx)` and `get_entry(idx)` followed by
`MstInclusionCircuit::init`. -/
def circuitOfTree {K : ℕ} (hs : HashScheme K) (t : MTree K) (d idx : ℕ) :
    Option (MstInclusionCircuit K) :=
  (t.generateProof hs d idx).bind fun pf =>
    (t.getEntry d idx).map fun e => MstInclusionCircuit.init pf e

/-! ## Concrete witness material

A concrete hash scheme and small trees used to instantiate the theorems
below on explicit inputs.  The hash functions are arbitrary injective-enough
polynomial encodings; nothing below depends on any structural property of
them beyond the concrete inequalities checked by `decide`. -/

/-- A concrete hash scheme for two assets used in witness instantiations. -/
def hsW : HashScheme 2 :=
  { leafHash := fun u b => (u.length : F) + b 0 * 65536 + b 1 * 4294967296
    nodeHash := fun l r => 1 + l.hash * 65536 + r.hash * 257 + l.balances 0 * 3
      + l.balances 1 * 5 + r.balances 0 * 7 + r.balances 1 * 11 }

/-- A concrete two-asset entry. -/
def eW (u : String) (a b : ℕ) : Entry 2 :=
  ⟨u, fun i => if i = 0 then a else b⟩

/-- A concrete complete depth-2 tree over four entries. -/
def tW : MTree 2 :=
  .node (.node (.leaf (eW "a" 10 20)) (.leaf (eW "b" 1 2)))
        (.node (.leaf (eW "c" 3 4)) (.leaf (eW "d" 5 6)))

/-- The circuit built from `tW` at user index 0 (as the tests do). -/
def cW0 : MstInclusionCircuit 2 := (circuitOfTree hsW tW 2 0).getD default

/-- A depth-2 tree whose first two leaves are identical entries; a valid
tree (duplicate users are not rejected) on which swapping the level-0 bit
reproduces the same root. -/
def tD : MTree 2 :=
  .node (.node (.leaf (eW "a" 10 20)) (.leaf (eW "a" 10 20)))
        (.node (.leaf (eW "c" 3 4)) (.leaf (eW "d" 5 6)))

/-- The circuit built from `tD` at user index 0. -/
def cD : MstInclusionCircuit 2 := (circuitOfTree hsW tD 2 0).getD default

/-- `cD` with its level-0 path bit flipped from 0 to 1. -/
def cDflip : MstInclusionCircuit 2 :=
  { cD with path_indices := cD.path_indices.set 0 1 }

/-- `cW0` with its level-0 path bit flipped from 0 to 1. -/
def cW0flip : MstInclusionCircuit 2 :=
  { cW0 with path_indices := cW0.path_indices.set 0 1 }

/-- `cW0` with its witness entry's balances tampered to (1000, 1000) after
the public inputs were fixed, as in `test_invalid_entry_balance_as_witness`. -/
def cW2 : MstInclusionCircuit 2 := { cW0 with entry := eW "a" 1000 1000 }

/-- `cW0` with the level-0 sibling balance of asset 0 set to 245, driving
the level-1 running sum to exactly `2^8 − 1` for byte width `B = 1`, the
scenario of `test_balance_not_in_range`. -/
def cW3 : MstInclusionCircuit 2 :=
  { cW0 with path_element_balances :=
      (cW0.path_element_balances.set 0
        (Function.update ((cW0.stepAt 0).1.balances) 0 245)) }

/-! ## Backend orchestration (`backend/src/apis/round.rs`)

Direct embedding of the given source file.  Rust functions that can panic
are modelled in the `Outcome` type below, which distinguishes a returned
`Ok`, a returned `Err`, and a panic (an `unwrap` of `None`/`Err`, or an
out-of-range indexing).  External collaborators (`parse_asset_csv`,
`generate_setup_artifacts`, `gen_proof_solidity_calldata`, the signer) are
not among the given sources and are abstracted as function parameters. -/

/-- The result of running a Rust function returning `Result<α, ε>`: it either
returns `Ok`, returns `Err`, or panics. -/
inductive Outcome (ε α : Type) where
  | ok (a : α)
  | err (e : ε)
  | panic
deriving DecidableEq

/-- Modelled from the spec: an externally attested asset descriptor
(`contracts::summa::Asset`), opaque to this core and passed through
unchanged. -/
structure Asset where
  id : ℕ
deriving DecidableEq

/-- The opaque trusted-setup artifact triple
`(ParamsKZG<Bn256>, ProvingKey<G1Affine>, VerifyingKey<G1Affine>)`,
abstracted as opaque handles. -/
def SetupArtifacts : Type := ℕ × ℕ × ℕ

instance : DecidableEq SetupArtifacts := by unfold SetupArtifacts; infer_instance

/-- The `Box<dyn Tree<N_ASSETS, N_BYTES>>` interface the backend holds: a
root node, proof generation and entry lookup by index.  `none` results model
the failure cases (an out-of-range index). -/
structure TreeObj (K : ℕ) where
  root : Node K
  generate_proof : ℕ → Option (MerkleProofM K)
  get_entry : ℕ → Option (Entry K)

/-- The in-memory Merkle sum tree as a `TreeObj` (the backing-store
interface instantiated with `MerkleSumTree`). -/
def MTree.toObj {K : ℕ} (hs : HashScheme K) (t : MTree K) (d : ℕ) : TreeObj K :=
  { root := t.value hs
    generate_proof := fun idx => t.generateProof hs d idx
    get_entry := fun idx => t.getEntry d idx }

/-- `MstInclusionProof { public_inputs: Vec<U256>, proof_calldata: Bytes }`,
with 256-bit words and bytes abstracted as natural numbers. -/
structure MstInclusionProof where
  public_inputs : List ℕ
  proof_calldata : List ℕ
deriving DecidableEq

/-- The external collaborators of the backend, abstracted: CSV parsing of
asset reserves, trusted-setup generation for a given `k` and parameter file,
and calldata rendering of an inclusion proof. -/
structure BackendEnv (K : ℕ) where
  parse_asset_csv : String → Option (List Asset)
  generate_setup_artifacts : ℕ → String → Option SetupArtifacts
  gen_proof_solidity_calldata : SetupArtifacts → MstInclusionCircuit K →
    List ℕ × List ℕ

/-- The arguments of one `submit_commitment` call on the signer. -/
structure CommitmentArgs where
  mst_root : ℕ
  root_sums : List ℕ
  assets : List Asset
  timestamp : ℕ
deriving DecidableEq

/-- The external chain signer (`SummaSigner`), exposing one operation whose
outcome (acceptance or a network/contract error) is the signer's own
behaviour. -/
structure SummaSigner where
  submit_commitment : CommitmentArgs → Except String Unit

/-- `Snapshot { mst, assets_state, trusted_setup }`. -/
structure Snapshot (K : ℕ) where
  mst : TreeObj K
  assets_state : List Asset
  trusted_setup : SetupArtifacts

/-- `Round { timestamp, snapshot, signer }`. -/
structure Round (K : ℕ) where
  timestamp : ℕ
  snapshot : Snapshot K
  signer : SummaSigner

/-- Rust's `str::split(sep)` on a character list: the segments between
occurrences of the separator (always at least one segment, possibly
empty). -/
def rustSplitAux (sep : Char) : List Char → List Char → List (List Char)
  | [], acc => [acc.reverse]
  | c :: rest, acc =>
      if c = sep then acc.reverse :: rustSplitAux sep rest []
      else rustSplitAux sep rest (c :: acc)

/-- Rust's `str::split(sep)` collected into a list of segments. -/
def rustSplit (sep : Char) (s : List Char) : List (List Char) :=
  rustSplitAux sep s []

/-- The numeric value of a digit string. -/
def digitsToNat (l : List Char) : ℕ :=
  l.foldl (fun acc c => acc * 10 + (c.toNat - 48)) 0

/-- Rust's `str::parse::<u32>()`: an optional leading `+`, then one or more
decimal digits, rejecting values that do not fit in 32 bits. -/
def parseU32 (s : List Char) : Option ℕ :=
  let t := match s with
    | c :: rest => if c = '+' then rest else s
    | [] => s
  if t ≠ [] ∧ t.all Char.isDigit then
    if digitsToNat t < 2 ^ 32 then some (digitsToNat t) else none
  else none

/-- `Snapshot::new(mst, asset_csv_path, params_path)`: parses the asset CSV
(unwrap), derives `k` from the params file name by splitting it on `-` and
parsing the last segment as a `u32` (both unwraps), generates the setup
artifacts with that `k` (unwrap), and returns the snapshot.  Every failure
of those steps is a panic of the corresponding `unwrap`. -/
def Snapshot.new {K : ℕ} (env : BackendEnv K) (mst : TreeObj K)
    (asset_csv_path params_path : String) : Outcome String (Snapshot K) :=
  match env.parse_asset_csv asset_csv_path with
  | none => .panic
  | some assets_state =>
    match (rustSplit '-' params_path.data).getLast? with
    | none => .panic
    | some last_part =>
      match parseU32 last_part with
      | none => .panic
      | some k =>
        match env.generate_setup_artifacts k params_path with
        | none => .panic
        | some arts => .ok ⟨mst, assets_state, arts⟩

/-- `Snapshot::generate_proof_of_inclusion(user_index)`: generates the
Merkle proof for the index (unwrap: a panic when out of range), reads the
entry (a panic when out of range), instantiates the circuit and renders the
calldata; the `Ok` carries the rendered proof and public inputs. -/
def Snapshot.generate_proof_of_inclusion {K : ℕ} (env : BackendEnv K)
    (s : Snapshot K) (user_index : ℕ) : Outcome String MstInclusionProof :=
  match s.mst.generate_proof user_index with
  | none => .panic
  | some merkle_proof =>
    match s.mst.get_entry user_index with
    | none => .panic
    | some user_entry =>
      let circuit := MstInclusionCircuit.init merkle_proof user_entry
      let calldata := env.gen_proof_solidity_calldata s.trusted_setup circuit
      .ok { proof_calldata := calldata.1, public_inputs := calldata.2 }

/-- `Round::new(signer, mst, asset_csv_path, params_path, timestamp)`:
builds the snapshot (unwrap: any snapshot failure is a panic) and wraps it
with the timestamp and signer. -/
def Round.new {K : ℕ} (env : BackendEnv K) (signer : SummaSigner)
    (mst : TreeObj K) (asset_csv_path params_path : String) (timestamp : ℕ) :
    Outcome String (Round K) :=
  match Snapshot.new env mst asset_csv_path params_path with
  | .ok snapshot => .ok ⟨timestamp, snapshot, signer⟩
  | .err _ => .panic
  | .panic => .panic

/-- `Round::get_timestamp()`. -/
def Round.get_timestamp {K : ℕ} (r : Round K) : ℕ := r.timestamp

/-- `Round::get_proof_of_inclusion(user_index)`: delegates to the snapshot
and unwraps the result (an `Err` from the snapshot would panic; the value is
re-wrapped in `Ok`). -/
def Round.get_proof_of_inclusion {K : ℕ} (env : BackendEnv K) (r : Round K)
    (user_index : ℕ) : Outcome String MstInclusionProof :=
  match r.snapshot.generate_proof_of_inclusion env user_index with
  | .ok p => .ok p
  | .err _ => .panic
  | .panic => .panic

/-- The conversion of a field element to the 256-bit word submitted
on-chain: `format!("{:?}", fp)` prints the canonical value in hexadecimal
and `U256::from_str_radix(.., 16)` parses it back, so the result is the
canonical integer representative. -/
def fpToU256 (x : F) : ℕ := x.val

/-- The argument tuple `Round::dispatch_commitment` submits through the
signer: the root hash and the per-asset root sums converted by
`fpToU256`, the asset state, and the round timestamp. -/
def Round.commitment_args {K : ℕ} (r : Round K) : CommitmentArgs :=
  { mst_root := fpToU256 r.snapshot.mst.root.hash
    root_sums := (List.ofFn r.snapshot.mst.root.balances).map fpToU256
    assets := r.snapshot.assets_state
    timestamp := r.get_timestamp }

/-- `Round::dispatch_commitment()`: reads the tree root, converts hash and
sums, submits them through the signer, and propagates a signer error with
`?`.  The function takes `&mut self` but assigns no field, so the embedding
returns the (unchanged) round as the post-state. -/
def Round.dispatch_commitment {K : ℕ} (r : Round K) :
    Outcome String Unit × Round K :=
  match r.signer.submit_commitment r.commitment_args with
  | .error e => (.err e, r)
  | .ok _ => (.ok (), r)

/-- Whether an outcome is a returned `Err` (as opposed to `Ok` or a
panic). -/
def Outcome.isErr {ε α : Type} : Outcome ε α → Bool
  | .err _ => true
  | _ => false

/-! ## Concrete backend witness material -/

/-- A concrete error message for a failing signer. -/
def errW : String := "network failure"

/-- Concrete asset descriptors. -/
def assetsW : List Asset := [⟨0⟩, ⟨1⟩]

/-- The in-memory tree object over `tW`. -/
def treeObjW : TreeObj 2 := tW.toObj hsW 2

/-- A concrete backend environment whose external collaborators always
succeed. -/
def envW : BackendEnv 2 :=
  { parse_asset_csv := fun _ => some assetsW
    generate_setup_artifacts := fun k _ => some (k, 0, 0)
    gen_proof_solidity_calldata := fun _ _ => ([7], [8]) }

/-- A concrete snapshot over `treeObjW`. -/
def snapshotW : Snapshot 2 := ⟨treeObjW, assetsW, (11, 0, 0)⟩

/-- A signer that accepts every submission. -/
def signerOkW : SummaSigner := ⟨fun _ => .ok ()⟩

/-- A signer that rejects every submission with `errW`. -/
def signerFailW : SummaSigner := ⟨fun _ => .error errW⟩

/-- A concrete round over `snapshotW` with the failing signer. -/
def roundFailW : Round 2 := ⟨1, snapshotW, signerFailW⟩

/-- A concrete asset CSV path. -/
def csvPathW : String := "assets.csv"

/-- A params path whose final `-`-segment is the decimal `11`. -/
def paramsPathW : String := "ptau/hermez-raw-11"

/-- A params path whose final `-`-segment is not a decimal number. -/
def paramsBadW : String := "ptau/hermez-raw"

/-! ## General lemmas -/

theorem filter_eq_nil_of {α : Type} (l : List α) (p : α → Bool)
    (h : ∀ a ∈ l, ¬ p a = true) : l.filter p = [] := by
  induction l with
  | nil => rfl
  | cons b tl ih =>
      have hb := h b (by simp)
      simp only [List.filter, Bool.not_eq_true] at hb ⊢
      rw [hb]
      exact ih fun a ha => h a (by simp [ha])

theorem filter_eq_self_of {α : Type} (l : List α) (p : α → Bool)
    (h : ∀ a ∈ l, p a = true) : l.filter p = l := by
  induction l with
  | nil => rfl
  | cons b tl ih =>
      simp only [List.filter, h b (by simp)]
      rw [ih fun a ha => h a (by simp [ha])]

theorem filter_singleton_of {α : Type} [DecidableEq α] :
    ∀ (l : List α) (a : α) (p : α → Bool), l.Nodup → a ∈ l →
      (∀ x ∈ l, (p x = true ↔ x = a)) → l.filter p = [a]
  | [], a, p, _, ha, _ => absurd ha (by simp)
  | b :: tl, a, p, hnd, ha, hp => by
      rcases List.nodup_cons.mp hnd with ⟨hbtl, hndtl⟩
      by_cases hba : b = a
      · subst hba
        have hpb : p b = true := (hp b (by simp)).mpr rfl
        simp only [List.filter, hpb]
        have : tl.filter p = [] := filter_eq_nil_of tl p fun x hx => by
          intro hpx
          exact hbtl ((hp x (by simp [hx])).mp hpx ▸ hx)
        rw [this]
      · have hpb : ¬ p b = true := fun hpb => hba ((hp b (by simp)).mp hpb)
        have hatl : a ∈ tl := by
          rcases List.mem_cons.mp ha with h | h
          · exact absurd h.symm hba
          · exact h
        simp only [List.filter, Bool.not_eq_true] at hpb ⊢
        rw [hpb]
        exact filter_singleton_of tl a p hndtl hatl fun x hx => hp x (by simp [hx])

theorem flatMap_eq_of {α β : Type} :
    ∀ (l : List α) (f : α → List β) (g : α → List β),
      (∀ a ∈ l, f a = g a) → l.flatMap f = l.flatMap g
  | [], _, _, _ => rfl
  | b :: tl, f, g, h => by
      simp only [List.flatMap_cons, h b (by simp)]
      rw [flatMap_eq_of tl f g fun a ha => h a (by simp [ha])]

theorem flatMap_if_singleton {α β : Type} :
    ∀ (l : List α) (p : α → Bool) (g : α → β),
      l.flatMap (fun a => if p a then [g a] else []) = (l.filter p).map g
  | [], _, _ => rfl
  | b :: tl, p, g => by
      by_cases hb : p b = true <;>
        simp only [List.flatMap_cons, List.filter, hb, if_true, if_false,
          Bool.false_eq_true, List.map, List.nil_append, List.singleton_append] <;>
        rw [flatMap_if_singleton tl p g]

theorem getD_ofFn_val {n : ℕ} {α : Type} [Inhabited α] (f : Fin n → α) (i : Fin n) :
    (List.ofFn f).get? i.val = some (f i) := by
  rw [List.get?_eq_get (by simp [i.isLt])]
  simp

/-- The boolean constraint holds exactly for the field values 0 and 1. -/
theorem boolConstraintOk_of_bool {b : F} (hb : b = 0 ∨ b = 1) : boolConstraintOk b := by
  rcases hb with h | h <;> subst h <;> simp [boolConstraintOk]

theorem ite_zeroF {α : Type} (a b : α) : (if (0 : F) = 0 then a else b) = a :=
  if_pos rfl

theorem ite_oneF {α : Type} (a b : α) : (if (1 : F) = 0 then a else b) = b :=
  if_neg one_ne_zero

/-- The swap constraint is satisfied by the conditional-swap assignment
whenever the bit is boolean. -/
theorem swapConstraintOk_of_bool {K : ℕ} {b : F} (hb : b = 0 ∨ b = 1)
    (cur sib : Node K) : swapConstraintOk b cur sib := by
  rcases hb with h | h <;> subst h <;>
      unfold swapConstraintOk <;>
      refine ⟨?_, ?_, fun i => ?_, fun i => ?_⟩
  all_goals first
    | (rw [ite_zeroF]; ring)
    | (rw [ite_oneF]; ring)

/-- The per-asset sum computed by a level is the sum of the current and
sibling balances, independently of the direction bit and of hashing. -/
theorem stepNode_balances {K : ℕ} (hs : HashScheme K) (cur : Node K)
    (p : Node K × F) (i : Fin K) :
    (stepNode hs cur p).balances i = cur.balances i + p.1.balances i := by
  by_cases h : p.2 = 0 <;> simp [stepNode, combineNode, h, add_comm]

theorem getD_append_left {α : Type} (d : α) :
    ∀ (l₁ l₂ : List α) (n : ℕ), n < l₁.length → (l₁ ++ l₂).getD n d = l₁.getD n d
  | [], _, n, h => absurd h (by simp)
  | a :: tl, l₂, 0, _ => rfl
  | a :: tl, l₂, n + 1, h => by
      simp only [List.cons_append, List.getD_cons_succ]
      exact getD_append_left d tl l₂ n (by simpa using h)

theorem getD_append_at {α : Type} (d : α) :
    ∀ (l₁ : List α) (a : α), (l₁ ++ [a]).getD l₁.length d = a
  | [], a => rfl
  | b :: tl, a => by
      simp only [List.cons_append, List.length_cons, List.getD_cons_succ]
      exact getD_append_at d tl a

theorem get?_append_left {α : Type} :
    ∀ (l₁ l₂ : List α) (n : ℕ), n < l₁.length → (l₁ ++ l₂).get? n = l₁.get? n
  | [], _, n, h => absurd h (by simp)
  | a :: tl, l₂, 0, _ => rfl
  | a :: tl, l₂, n + 1, h => by
      simp only [List.cons_append, List.get?_cons_succ]
      exact get?_append_left tl l₂ n (by simpa using h)

theorem get?_append_at {α : Type} :
    ∀ (l₁ : List α) (a : α), (l₁ ++ [a]).get? l₁.length = some a
  | [], a => rfl
  | b :: tl, a => by
      simp only [List.cons_append, List.length_cons, List.get?_cons_succ]
      exact get?_append_at tl a

/-! ### The generated path recomputes the tree's own nodes -/

theorem genPath_length {K : ℕ} (hs : HashScheme K) :
    ∀ (t : MTree K) (d idx : ℕ), t.complete d → (t.genPath hs d idx).length = d
  | .leaf _, d, _, h => by
      have hd : d = 0 := h
      subst hd; rfl
  | .node l r, d, idx, h => by
      obtain ⟨d', rfl, hl, hr⟩ := h
      by_cases hi : idx < 2 ^ d'
      · simp [MTree.genPath, hi, genPath_length hs l d' idx hl]
      · simp [MTree.genPath, hi, genPath_length hs r d' (idx - 2 ^ d') hr]

theorem genPath_bits {K : ℕ} (hs : HashScheme K) :
    ∀ (t : MTree K) (d idx : ℕ) (p : Node K × F), p ∈ t.genPath hs d idx →
      p.2 = 0 ∨ p.2 = 1
  | .leaf _, _, _, p, hp => absurd hp (by simp [MTree.genPath])
  | .node _ _, 0, _, p, hp => absurd hp (by simp [MTree.genPath])
  | .node l r, d + 1, idx, p, hp => by
      by_cases hi : idx < 2 ^ d
      · simp only [MTree.genPath, if_pos hi, List.mem_append,
          List.mem_singleton] at hp
        rcases hp with h | h
        · exact genPath_bits hs l d idx p h
        · subst h; exact Or.inl rfl
      · simp only [MTree.genPath, if_neg hi, List.mem_append,
          List.mem_singleton] at hp
        rcases hp with h | h
        · exact genPath_bits hs r d (idx - 2 ^ d) p h
        · subst h; exact Or.inr rfl

theorem pathNodes_length {K : ℕ} (hs : HashScheme K) :
    ∀ (t : MTree K) (d idx : ℕ), t.complete d →
      (t.pathNodes hs d idx).length = d + 1
  | .leaf _, d, _, h => by
      have hd : d = 0 := h
      subst hd; rfl
  | .node l r, d, idx, h => by
      obtain ⟨d', rfl, hl, hr⟩ := h
      by_cases hi : idx < 2 ^ d'
      · simp [MTree.pathNodes, hi, pathNodes_length hs l d' idx hl]
      · simp [MTree.pathNodes, hi, pathNodes_length hs r d' (idx - 2 ^ d') hr]

theorem pathNodes_getD_last {K : ℕ} (hs : HashScheme K) :
    ∀ (t : MTree K) (d idx : ℕ), t.complete d →
      (t.pathNodes hs d idx).getD d default = t.value hs
  | .leaf _, d, _, h => by
      have hd : d = 0 := h
      subst hd; rfl
  | .node l r, d, idx, h => by
      obtain ⟨d', rfl, hl, hr⟩ := h
      by_cases hi : idx < 2 ^ d'
      · rw [MTree.pathNodes, if_pos hi]
        have hlen := pathNodes_length hs l d' idx hl
        calc (l.pathNodes hs d' idx ++ [(MTree.node l r).value hs]).getD (d' + 1) default
            = (l.pathNodes hs d' idx ++ [(MTree.node l r).value hs]).getD
                (l.pathNodes hs d' idx).length default := by rw [hlen]
          _ = (MTree.node l r).value hs := getD_append_at _ _ _
      · rw [MTree.pathNodes, if_neg hi]
        have hlen := pathNodes_length hs r d' (idx - 2 ^ d') hr
        calc (r.pathNodes hs d' (idx - 2 ^ d') ++ [(MTree.node l r).value hs]).getD
              (d' + 1) default
            = (r.pathNodes hs d' (idx - 2 ^ d') ++ [(MTree.node l r).value hs]).getD
                (r.pathNodes hs d' (idx - 2 ^ d')).length default := by rw [hlen]
          _ = (MTree.node l r).value hs := getD_append_at _ _ _

theorem pathNodes_head {K : ℕ} (hs : HashScheme K) :
    ∀ (t : MTree K) (d idx : ℕ), t.complete d → idx < 2 ^ d →
      ∃ e, t.getEntry d idx = some e ∧
        (t.pathNodes hs d idx).getD 0 default = compute_leaf hs e
  | .leaf e, d, idx, h, hi => by
      have hd : d = 0 := h
      subst hd
      have hidx : idx = 0 := by simpa using hi
      subst hidx
      exact ⟨e, by simp [MTree.getEntry], rfl⟩
  | .node l r, d, idx, h, hi => by
      obtain ⟨d', rfl, hl, hr⟩ := h
      by_cases hil : idx < 2 ^ d'
      · obtain ⟨e, he, hh⟩ := pathNodes_head hs l d' idx hl hil
        refine ⟨e, by simp [MTree.getEntry, hil, he], ?_⟩
        rw [MTree.pathNodes, if_pos hil,
          getD_append_left _ _ _ _ (by simp [pathNodes_length hs l d' idx hl]), hh]
      · have hir : idx - 2 ^ d' < 2 ^ d' := by
          have h2 : 2 ^ (d' + 1) = 2 ^ d' * 2 := pow_succ 2 d'
          omega
        obtain ⟨e, he, hh⟩ := pathNodes_head hs r d' (idx - 2 ^ d') hr hir
        refine ⟨e, by simp [MTree.getEntry, hil, he], ?_⟩
        rw [MTree.pathNodes, if_neg hil,
          getD_append_left _ _ _ _
            (by simp [pathNodes_length hs r d' (idx - 2 ^ d') hr]), hh]

theorem pathNodes_inRange {K : ℕ} (hs : HashScheme K) (B : ℕ) :
    ∀ (t : MTree K) (d idx : ℕ), t.complete d → t.allInRange hs B →
      ∀ m, 0 < m → m ≤ d → ∀ i,
        rangeOk B (((t.pathNodes hs d idx).getD m default).balances i)
  | .leaf _, d, _, h, _, m, hm0, hmd, i => by
      have hd : d = 0 := h
      subst hd
      omega
  | .node l r, d, idx, h, hr0, m, hm0, hmd, i => by
      obtain ⟨d', rfl, hl, hr⟩ := h
      obtain ⟨hil, hir, hroot⟩ := hr0
      by_cases hi : idx < 2 ^ d'
      · rw [MTree.pathNodes, if_pos hi]
        rcases Nat.lt_or_ge m (d' + 1) with hm | hm
        · rw [getD_append_left _ _ _ _
            (by simp [pathNodes_length hs l d' idx hl]; omega)]
          exact pathNodes_inRange hs B l d' idx hl hil m hm0 (by omega) i
        · have hmeq : m = d' + 1 := by omega
          subst hmeq
          have hlen := pathNodes_length hs l d' idx hl
          rw [show d' + 1 = (l.pathNodes hs d' idx).length from hlen.symm,
            getD_append_at]
          exact hroot i
      · rw [MTree.pathNodes, if_neg hi]
        rcases Nat.lt_or_ge m (d' + 1) with hm | hm
        · rw [getD_append_left _ _ _ _
            (by simp [pathNodes_length hs r d' (idx - 2 ^ d') hr]; omega)]
          exact pathNodes_inRange hs B r d' (idx - 2 ^ d') hr hir m hm0 (by omega) i
        · have hmeq : m = d' + 1 := by omega
          subst hmeq
          have hlen := pathNodes_length hs r d' (idx - 2 ^ d') hr
          rw [show d' + 1 = (r.pathNodes hs d' (idx - 2 ^ d')).length from hlen.symm,
            getD_append_at]
          exact hroot i

/-- Circuit states agree up to a level when the entries agree and the
witness steps below that level agree. -/
theorem stateAt_congr {K : ℕ} (hs : HashScheme K) {c c' : MstInclusionCircuit K}
    (hent : c'.entry = c.entry) :
    ∀ n, (∀ m, m < n → c'.stepAt m = c.stepAt m) →
      stateAt hs c' n = stateAt hs c n
  | 0, _ => by simp [stateAt, hent]
  | n + 1, h => by
      simp only [stateAt]
      rw [stateAt_congr hs hent n fun m hm => h m (Nat.lt_succ_of_lt hm),
        h n (Nat.lt_succ_self n)]

theorem flatMap_eq_nil_of {α β : Type} :
    ∀ (l : List α) (f : α → List β), (∀ a ∈ l, f a = []) → l.flatMap f = []
  | [], _, _ => rfl
  | b :: tl, f, h => by
      simp only [List.flatMap_cons, h b (by simp), List.nil_append]
      exact flatMap_eq_nil_of tl f fun a ha => h a (by simp [ha])

theorem get?_cons_cons_two {α : Type} (a b : α) (l : List α) (n : ℕ) :
    (a :: b :: l).get? (2 + n) = l.get? n := by
  have h : 2 + n = n + 2 := by omega
  rw [h]
  rfl

theorem stepNode_zero {K : ℕ} (hs : HashScheme K) (cur sib : Node K) :
    stepNode hs cur (sib, 0) = combineNode hs cur sib := by
  unfold stepNode
  split_ifs with h
  · rfl
  · exact absurd rfl h

theorem stepNode_one {K : ℕ} (hs : HashScheme K) (cur sib : Node K) :
    stepNode hs cur (sib, 1) = combineNode hs sib cur := by
  unfold stepNode
  split_ifs with h
  · exact absurd h one_ne_zero
  · rfl

/-- Reading a step of a circuit whose witness lists are the projections of a
path list returns the path element itself. -/
theorem get?_append_at_of {α : Type} (l₁ : List α) (a : α) (n : ℕ)
    (h : l₁.length = n) : (l₁ ++ [a]).get? n = some a := by
  subst h
  exact get?_append_at l₁ a

theorem getD_append_at_of {α : Type} (d : α) (l₁ : List α) (a : α) (n : ℕ)
    (h : l₁.length = n) : (l₁ ++ [a]).getD n d = a := by
  subst h
  exact getD_append_at d l₁ a

theorem stepAt_of_record {K : ℕ} (path : List (Node K × F)) (e : Entry K)
    (root : Node K) (m : ℕ) (hm : m < path.length) :
    (MstInclusionCircuit.mk e (path.map fun p => p.1.hash)
        (path.map fun p => p.1.balances) (path.map Prod.snd) root).stepAt m
      = (path.get? m).getD default := by
  have hp : path[m]? = some (path.get ⟨m, hm⟩) := by
    rw [← List.get?_eq_getElem?]
    exact List.get?_eq_get hm
  have hp' : path.get? m = some (path.get ⟨m, hm⟩) := List.get?_eq_get hm
  simp [MstInclusionCircuit.stepAt, List.get?_map, hp, hp']

/-- The central path-recomputation lemma: a circuit whose steps agree with
the generated path of a complete tree, and whose leaf state matches the
tree's leaf at the index, recomputes exactly the tree's own path nodes at
every level. -/
theorem stateAt_of_path {K : ℕ} (hs : HashScheme K) :
    ∀ (t : MTree K) (d idx : ℕ), t.complete d → idx < 2 ^ d →
      ∀ (c : MstInclusionCircuit K),
        (∀ m, m < d → c.stepAt m = ((t.genPath hs d idx).get? m).getD default) →
        stateAt hs c 0 = (t.pathNodes hs d idx).getD 0 default →
        ∀ m, m ≤ d → stateAt hs c m = (t.pathNodes hs d idx).getD m default
  | .leaf _, d, idx, hcomp, _, c, _, h0, m, hm => by
      have hd : d = 0 := hcomp
      subst hd
      have hm0 : m = 0 := by omega
      subst hm0
      exact h0
  | .node l r, d, idx, hcomp, hidx, c, hsteps, h0, m, hm => by
      obtain ⟨d', rfl, hl, hr⟩ := hcomp
      by_cases hi : idx < 2 ^ d'
      · have hglen := genPath_length hs l d' idx hl
        have hplen := pathNodes_length hs l d' idx hl
        have hsteps' : ∀ m', m' < d' →
            c.stepAt m' = ((l.genPath hs d' idx).get? m').getD default := by
          intro m' hm'
          rw [hsteps m' (by omega), MTree.genPath, if_pos hi,
            get?_append_left _ _ _ (by omega)]
        have h0' : stateAt hs c 0 = (l.pathNodes hs d' idx).getD 0 default := by
          rw [h0, MTree.pathNodes, if_pos hi,
            getD_append_left _ _ _ _ (by omega)]
        have IH := stateAt_of_path hs l d' idx hl hi c hsteps' h0'
        rcases Nat.lt_or_ge m (d' + 1) with hmlt | hmge
        · rw [IH m (by omega), MTree.pathNodes, if_pos hi,
            getD_append_left _ _ _ _ (by omega)]
        · have hmeq : m = d' + 1 := by omega
          subst hmeq
          have hstep : c.stepAt d' = (r.value hs, 0) := by
            rw [hsteps d' (by omega), MTree.genPath, if_pos hi,
              get?_append_at_of _ _ _ hglen]
            rfl
          have htop : stateAt hs c (d' + 1)
              = stepNode hs (l.value hs) (r.value hs, 0) := by
            show stepNode hs (stateAt hs c d') (c.stepAt d') = _
            rw [IH d' (le_refl d'), pathNodes_getD_last hs l d' idx hl, hstep]
          rw [htop, stepNode_zero, MTree.pathNodes, if_pos hi,
            getD_append_at_of _ _ _ _ hplen]
          rfl
      · have hir : idx - 2 ^ d' < 2 ^ d' := by
          have h2 : 2 ^ (d' + 1) = 2 ^ d' * 2 := pow_succ 2 d'
          omega
        have hglen := genPath_length hs r d' (idx - 2 ^ d') hr
        have hplen := pathNodes_length hs r d' (idx - 2 ^ d') hr
        have hsteps' : ∀ m', m' < d' →
            c.stepAt m' = ((r.genPath hs d' (idx - 2 ^ d')).get? m').getD default := by
          intro m' hm'
          rw [hsteps m' (by omega), MTree.genPath, if_neg hi,
            get?_append_left _ _ _ (by omega)]
        have h0' : stateAt hs c 0 = (r.pathNodes hs d' (idx - 2 ^ d')).getD 0 default := by
          rw [h0, MTree.pathNodes, if_neg hi,
            getD_append_left _ _ _ _ (by omega)]
        have IH := stateAt_of_path hs r d' (idx - 2 ^ d') hr hir c hsteps' h0'
        rcases Nat.lt_or_ge m (d' + 1) with hmlt | hmge
        · rw [IH m (by omega), MTree.pathNodes, if_neg hi,
            getD_append_left _ _ _ _ (by omega)]
        · have hmeq : m = d' + 1 := by omega
          subst hmeq
          have hstep : c.stepAt d' = (l.value hs, 1) := by
            rw [hsteps d' (by omega), MTree.genPath, if_neg hi,
              get?_append_at_of _ _ _ hglen]
            rfl
          have htop : stateAt hs c (d' + 1)
              = stepNode hs (r.value hs) (l.value hs, 1) := by
            show stepNode hs (stateAt hs c d') (c.stepAt d') = _
            rw [IH d' (le_refl d'), pathNodes_getD_last hs r d' (idx - 2 ^ d') hr,
              hstep]
          rw [htop, stepNode_one, MTree.pathNodes, if_neg hi,
            getD_append_at_of _ _ _ _ hplen]
          rfl

/-- `circuitOfTree` succeeds on a valid index of a complete tree and yields
the circuit whose witness lists are the projections of the generated
path. -/
theorem circuitOfTree_some {K : ℕ} (hs : HashScheme K) (t : MTree K) (d idx : ℕ)
    (hcomp : t.complete d) (hidx : idx < 2 ^ d) :
    ∃ e, t.getEntry d idx = some e ∧
      circuitOfTree hs t d idx = some
        { entry := e
          path_element_hashes := (t.genPath hs d idx).map fun p => p.1.hash
          path_element_balances := (t.genPath hs d idx).map fun p => p.1.balances
          path_indices := (t.genPath hs d idx).map Prod.snd
          root := t.value hs } := by
  obtain ⟨e, he, _⟩ := pathNodes_head hs t d idx hcomp hidx
  refine ⟨e, he, ?_⟩
  simp [circuitOfTree, MTree.generateProof, if_pos hidx, he,
    MstInclusionCircuit.init, List.map_map, Function.comp]

/-- The facts about a circuit built from a complete tree used by all
claims: the number of levels, the stored root, the originating entry, the
recomputed states, and the booleanness of the path bits. -/
theorem circuit_facts {K : ℕ} (hs : HashScheme K) {t : MTree K} {d idx : ℕ}
    {c : MstInclusionCircuit K}
    (hcomp : t.complete d) (hidx : idx < 2 ^ d)
    (hco : circuitOfTree hs t d idx = some c) :
    c.levels = d ∧
    c.root = t.value hs ∧
    t.getEntry d idx = some c.entry ∧
    (∀ m, m ≤ d → stateAt hs c m = (t.pathNodes hs d idx).getD m default) ∧
    (∀ m, m < d → (c.stepAt m).2 = 0 ∨ (c.stepAt m).2 = 1) ∧
    c.path_element_balances.length = d := by
  obtain ⟨e, he, hrec⟩ := circuitOfTree_some hs t d idx hcomp hidx
  rw [hrec] at hco
  have hc : c = { entry := e
                  path_element_hashes := (t.genPath hs d idx).map fun p => p.1.hash
                  path_element_balances := (t.genPath hs d idx).map fun p => p.1.balances
                  path_indices := (t.genPath hs d idx).map Prod.snd
                  root := t.value hs } := (Option.some_inj.mp hco).symm
  subst hc
  have hglen := genPath_length hs t d idx hcomp
  have hlev : MstInclusionCircuit.levels
      { entry := e
        path_element_hashes := (t.genPath hs d idx).map fun p => p.1.hash
        path_element_balances := (t.genPath hs d idx).map fun p => p.1.balances
        path_indices := (t.genPath hs d idx).map Prod.snd
        root := t.value hs } = d := by
    simp [MstInclusionCircuit.levels, hglen]
  have hsteps : ∀ m, m < d →
      MstInclusionCircuit.stepAt
        { entry := e
          path_element_hashes := (t.genPath hs d idx).map fun p => p.1.hash
          path_element_balances := (t.genPath hs d idx).map fun p => p.1.balances
          path_indices := (t.genPath hs d idx).map Prod.snd
          root := t.value hs } m = ((t.genPath hs d idx).get? m).getD default :=
    fun m hm => stepAt_of_record (t.genPath hs d idx) e (t.value hs) m (by omega)
  obtain ⟨e', he', hh⟩ := pathNodes_head hs t d idx hcomp hidx
  have hee : e' = e := by
    rw [he] at he'
    exact (Option.some_inj.mp he').symm
  subst hee
  refine ⟨hlev, rfl, he, ?_, ?_, by simpa using hglen⟩
  · refine stateAt_of_path hs t d idx hcomp hidx _ hsteps ?_
    rw [hh]
    rfl
  · intro m hm
    rw [hsteps m hm]
    have hmlen : m < (t.genPath hs d idx).length := by omega
    have hp : (t.genPath hs d idx).get? m
        = some ((t.genPath hs d idx).get ⟨m, hmlen⟩) := List.get?_eq_get hmlen
    rw [hp, Option.getD_some]
    exact genPath_bits hs t d idx _ (List.get_mem _ _ _)


/-- For a circuit generated from a valid (complete, fully in-range) tree,
the boolean, swap and range sections of the mock prover report nothing, so
the verification outcome reduces to the three public-input bindings. -/
theorem mockVerify_clean {K B : ℕ} (hs : HashScheme K) {t : MTree K} {d idx : ℕ}
    {c : MstInclusionCircuit K}
    (hcomp : t.complete d) (hrange : t.allInRange hs B) (hidx : idx < 2 ^ d)
    (hco : circuitOfTree hs t d idx = some c) (inst : List F) :
    mockVerify hs B c inst =
      (if inst.get? 0 = some (compute_leaf hs c.entry).hash then []
        else [Violation.leafHashBinding])
      ++ (if inst.get? 1 = some (t.value hs).hash then []
        else [Violation.rootHashBinding])
      ++ ((List.finRange K).filter fun (i : Fin K) =>
            decide (¬ inst.get? (2 + i.val) = some ((t.value hs).balances i))).map
          Violation.rootBalanceBinding := by
  obtain ⟨hlev, hroot, hent, hstates, hbits, hblen⟩ := circuit_facts hs hcomp hidx hco
  have hstate_top : stateAt hs c c.levels = t.value hs := by
    rw [hlev, hstates d (le_refl d), pathNodes_getD_last hs t d idx hcomp]
  have h1 : ((List.range c.levels).filter fun j =>
      decide (¬ boolConstraintOk (c.stepAt j).2)).map Violation.boolCheck
      = ([] : List (Violation K)) := by
    rw [filter_eq_nil_of]
    · rfl
    · intro j hj
      have hjd : j < d := by rw [← hlev]; exact List.mem_range.mp hj
      have hb := boolConstraintOk_of_bool (hbits j hjd)
      simp [hb]
  have h2 : ((List.range c.levels).filter fun j =>
      decide (¬ swapConstraintOk (c.stepAt j).2 (stateAt hs c j) (c.stepAt j).1)).map
        Violation.swapCheck = ([] : List (Violation K)) := by
    rw [filter_eq_nil_of]
    · rfl
    · intro j hj
      have hjd : j < d := by rw [← hlev]; exact List.mem_range.mp hj
      have hb := swapConstraintOk_of_bool (hbits j hjd) (stateAt hs c j) (c.stepAt j).1
      simp [hb]
  have h3 : (List.range c.levels).flatMap (fun j =>
      ((List.finRange K).filter fun i =>
          decide (¬ rangeOk B ((stateAt hs c (j + 1)).balances i))).map
        (Violation.rangeCheck j)) = ([] : List (Violation K)) := by
    apply flatMap_eq_nil_of
    intro j hj
    have hjd : j < d := by rw [← hlev]; exact List.mem_range.mp hj
    rw [filter_eq_nil_of]
    · rfl
    · intro i _
      have hst := hstates (j + 1) (by omega)
      have hr := pathNodes_inRange hs B t d idx hcomp hrange (j + 1)
        (by omega) (by omega) i
      rw [hst]
      simpa using hr
  unfold mockVerify
  rw [h1, h2, h3, hstate_top]
  simp only [List.nil_append]

/-- C1: for every tree built from valid entries (complete shape, all sums in
range) and every valid leaf witness, replacing only the public root hash
with a different field element makes verification fail with the copy
(permutation) violation at the root-binding location only — no boolean,
swap, or range-check violations — and a full-prover proof generated against
the tampered public inputs fails verification. -/
theorem c1_invalid_root_hash {K B : ℕ} (hs : HashScheme K) (t : MTree K)
    (d idx : ℕ) (c : MstInclusionCircuit K) (h' : F)
    (hcomp : t.complete d) (hrange : t.allInRange hs B) (hidx : idx < 2 ^ d)
    (hco : circuitOfTree hs t d idx = some c)
    (hne : h' ≠ (t.value hs).hash) :
    mockVerify hs B c ((c.instances hs).set 1 h') = [Violation.rootHashBinding] ∧
    full_verifier hs B (full_prover c) ((c.instances hs).set 1 h') = false := by
  obtain ⟨hlev, hroot, hent, hstates, hbits, hblen⟩ := circuit_facts hs hcomp hidx hco
  have hinst : (c.instances hs).set 1 h'
      = (compute_leaf hs c.entry).hash :: h' :: List.ofFn ((t.value hs).balances) := by
    rw [MstInclusionCircuit.instances, hroot]
    rfl
  have hmv := mockVerify_clean (B := B) hs hcomp hrange hidx hco
    ((c.instances hs).set 1 h')
  rw [hinst] at hmv
  have hg2 : ∀ i : Fin K,
      ((compute_leaf hs c.entry).hash :: h' :: List.ofFn ((t.value hs).balances)).get?
        (2 + i.val) = some ((t.value hs).balances i) := by
    intro i
    rw [get?_cons_cons_two]
    exact getD_ofFn_val _ i
  rw [if_pos (show ((compute_leaf hs c.entry).hash :: h' ::
      List.ofFn ((t.value hs).balances)).get? 0
      = some (compute_leaf hs c.entry).hash from rfl)] at hmv
  have hcond1 : ¬ ((compute_leaf hs c.entry).hash :: h' ::
      List.ofFn ((t.value hs).balances)).get? 1 = some (t.value hs).hash := by
    intro hcontra
    exact hne (Option.some_inj.mp hcontra)
  rw [if_neg hcond1] at hmv
  rw [filter_eq_nil_of _ _ (fun i _ => by simpa using hg2 i)] at hmv
  simp only [List.nil_append, List.map_nil, List.append_nil] at hmv
  rw [← hinst] at hmv
  refine ⟨hmv, ?_⟩
  simp [full_verifier, full_prover, hmv]

/-- Witness for C1: the concrete two-asset depth-2 tree, user index 0, and
the tampered public root hash 1000. -/
theorem c1_invalid_root_hash_witness :
    (tW.complete 2 ∧ tW.allInRange hsW 1 ∧ 0 < 2 ^ 2 ∧
      circuitOfTree hsW tW 2 0 = some cW0 ∧ (1000 : F) ≠ (tW.value hsW).hash) ∧
    mockVerify hsW 1 cW0 ((cW0.instances hsW).set 1 1000)
      = [Violation.rootHashBinding] ∧
    full_verifier hsW 1 (full_prover cW0) ((cW0.instances hsW).set 1 1000)
      = false :=
  ⟨⟨by decide, by decide, by decide, by decide, by decide⟩,
    c1_invalid_root_hash hsW tW 2 0 cW0 1000 (by decide) (by decide) (by decide)
      (by decide) (by decide)⟩

theorem get?_set_self {α : Type} :
    ∀ (l : List α) (n : ℕ) (a : α), n < l.length → (l.set n a).get? n = some a
  | [], n, a, h => absurd h (by simp)
  | b :: tl, 0, a, _ => rfl
  | b :: tl, n + 1, a, h => by
      show (tl.set n a).get? n = some a
      exact get?_set_self tl n a (by simpa using h)

theorem get?_set_ne {α : Type} :
    ∀ (l : List α) (n m : ℕ) (a : α), n ≠ m → (l.set n a).get? m = l.get? m
  | [], _, _, _, _ => rfl
  | b :: tl, 0, 0, a, h => absurd rfl h
  | b :: tl, 0, m + 1, a, _ => rfl
  | b :: tl, n + 1, 0, a, _ => rfl
  | b :: tl, n + 1, m + 1, a, h => by
      show (tl.set n a).get? m = tl.get? m
      exact get?_set_ne tl n m a fun hc => h (by omega)

/-- The running sums of two circuits agree at every level and asset when
their entries agree and their sibling nodes carry the same balances — the
direction bits and all hashes are irrelevant to the sums. -/
theorem stateAt_balances_of_sib {K : ℕ} (hs : HashScheme K)
    {c c' : MstInclusionCircuit K} (hent : c'.entry = c.entry) (i : Fin K)
    (hsib : ∀ m, ((c'.stepAt m).1).balances i = ((c.stepAt m).1).balances i) :
    ∀ n, (stateAt hs c' n).balances i = (stateAt hs c n).balances i
  | 0 => by simp [stateAt, hent]
  | n + 1 => by
      have hl : (stateAt hs c' (n + 1)).balances i
          = (stateAt hs c' n).balances i + ((c'.stepAt n).1).balances i :=
        stepNode_balances hs _ _ i
      have hr2 : (stateAt hs c (n + 1)).balances i
          = (stateAt hs c n).balances i + ((c.stepAt n).1).balances i :=
        stepNode_balances hs _ _ i
      rw [hl, hr2, stateAt_balances_of_sib hs hent i hsib n, hsib n]

/-- When every path bit of a circuit is boolean, the boolean and swap
sections of the mock prover are empty, so its outcome is the range section
followed by the three public bindings. -/
theorem mockVerify_boolswap {K B : ℕ} (hs : HashScheme K)
    (c : MstInclusionCircuit K) (inst : List F)
    (hbool : ∀ j, j < c.levels → (c.stepAt j).2 = 0 ∨ (c.stepAt j).2 = 1) :
    mockVerify hs B c inst =
      (List.range c.levels).flatMap (fun j =>
        ((List.finRange K).filter fun i =>
            decide (¬ rangeOk B ((stateAt hs c (j + 1)).balances i))).map
          (Violation.rangeCheck j))
      ++ (if inst.get? 0 = some (compute_leaf hs c.entry).hash then []
        else [Violation.leafHashBinding])
      ++ (if inst.get? 1 = some (stateAt hs c c.levels).hash then []
        else [Violation.rootHashBinding])
      ++ ((List.finRange K).filter fun (i : Fin K) =>
            decide (¬ inst.get? (2 + i.val)
              = some ((stateAt hs c c.levels).balances i))).map
          Violation.rootBalanceBinding := by
  have h1 : ((List.range c.levels).filter fun j =>
      decide (¬ boolConstraintOk (c.stepAt j).2)).map Violation.boolCheck
      = ([] : List (Violation K)) := by
    rw [filter_eq_nil_of]
    · rfl
    · intro j hj
      have hb := boolConstraintOk_of_bool (hbool j (List.mem_range.mp hj))
      simp [hb]
  have h2 : ((List.range c.levels).filter fun j =>
      decide (¬ swapConstraintOk (c.stepAt j).2 (stateAt hs c j) (c.stepAt j).1)).map
        Violation.swapCheck = ([] : List (Violation K)) := by
    rw [filter_eq_nil_of]
    · rfl
    · intro j hj
      have hb := swapConstraintOk_of_bool (hbool j (List.mem_range.mp hj))
        (stateAt hs c j) (c.stepAt j).1
      simp [hb]
  unfold mockVerify
  rw [h1, h2]
  simp only [List.nil_append]

/-- When additionally every level's recomputed sum is in range, the range
section is empty as well and only the three public bindings remain. -/
theorem mockVerify_sections {K B : ℕ} (hs : HashScheme K)
    (c : MstInclusionCircuit K) (inst : List F)
    (hbool : ∀ j, j < c.levels → (c.stepAt j).2 = 0 ∨ (c.stepAt j).2 = 1)
    (hrg : ∀ j, j < c.levels → ∀ i, rangeOk B ((stateAt hs c (j + 1)).balances i)) :
    mockVerify hs B c inst =
      (if inst.get? 0 = some (compute_leaf hs c.entry).hash then []
        else [Violation.leafHashBinding])
      ++ (if inst.get? 1 = some (stateAt hs c c.levels).hash then []
        else [Violation.rootHashBinding])
      ++ ((List.finRange K).filter fun (i : Fin K) =>
            decide (¬ inst.get? (2 + i.val)
              = some ((stateAt hs c c.levels).balances i))).map
          Violation.rootBalanceBinding := by
  rw [mockVerify_boolswap hs c inst hbool]
  have h3 : (List.range c.levels).flatMap (fun j =>
      ((List.finRange K).filter fun i =>
          decide (¬ rangeOk B ((stateAt hs c (j + 1)).balances i))).map
        (Violation.rangeCheck j)) = ([] : List (Violation K)) := by
    apply flatMap_eq_nil_of
    intro j hj
    rw [filter_eq_nil_of]
    · rfl
    · intro i _
      have hr := hrg j (List.mem_range.mp hj) i
      simpa using hr
  rw [h3]
  simp only [List.nil_append]

/-- C4 (amended): flipping one valid path-index bit (0 to 1 or 1 to 0) at a
single level, leaving all other witness and public values unchanged, leaves
every boolean, swap and range check satisfied and every balance binding
intact; provided the recomputed root hash diverges from the true root hash —
which the flip does not force when the subtree and its sibling at that level
are equal — verification fails at the root-binding copy constraint only. -/
theorem c4_swapped_index_amended {K B : ℕ} (hs : HashScheme K) (t : MTree K)
    (d idx jf : ℕ) (c c' : MstInclusionCircuit K) (b' : F)
    (hcomp : t.complete d) (hrange : t.allInRange hs B) (hidx : idx < 2 ^ d)
    (hco : circuitOfTree hs t d idx = some c)
    (hb' : b' = 0 ∨ b' = 1) (hflip : b' ≠ (c.stepAt jf).2)
    (hc' : c' = { c with path_indices := c.path_indices.set jf b' })
    (hroot' : (stateAt hs c' c'.levels).hash ≠ (t.value hs).hash) :
    mockVerify hs B c' (c.instances hs) = [Violation.rootHashBinding] := by
  obtain ⟨hlev, hroot, hent, hstates, hbits, hblen⟩ := circuit_facts hs hcomp hidx hco
  have hlen : c.path_indices.length = d := hlev
  have hent' : c'.entry = c.entry := by rw [hc']
  have hsib : ∀ m i, ((c'.stepAt m).1).balances i = ((c.stepAt m).1).balances i := by
    intro m i
    rw [hc']
    rfl
  have hbitne : ∀ j, j ≠ jf → (c'.stepAt j).2 = (c.stepAt j).2 := by
    intro j hj
    rw [hc']
    show ((c.path_indices.set jf b').get? j).getD 0 = _
    rw [get?_set_ne _ _ _ _ fun h => hj h.symm]
    rfl
  have hbitj : jf < d → (c'.stepAt jf).2 = b' := by
    intro h
    rw [hc']
    show ((c.path_indices.set jf b').get? jf).getD 0 = _
    rw [get?_set_self _ _ _ (by omega)]
    rfl
  have hlev' : c'.levels = d := by
    rw [hc']
    show (c.path_indices.set jf b').length = d
    rw [List.length_set]
    exact hlen
  have hballs : ∀ n i, (stateAt hs c' n).balances i = (stateAt hs c n).balances i :=
    fun n i => stateAt_balances_of_sib hs hent' i (fun m => hsib m i) n
  have hbool' : ∀ j, j < c'.levels → (c'.stepAt j).2 = 0 ∨ (c'.stepAt j).2 = 1 := by
    intro j hj
    rw [hlev'] at hj
    by_cases hjf : j = jf
    · subst hjf
      rw [hbitj hj]
      exact hb'
    · rw [hbitne j hjf]
      exact hbits j hj
  have hrg' : ∀ j, j < c'.levels → ∀ i,
      rangeOk B ((stateAt hs c' (j + 1)).balances i) := by
    intro j hj i
    rw [hlev'] at hj
    rw [hballs, hstates (j + 1) (by omega)]
    exact pathNodes_inRange hs B t d idx hcomp hrange (j + 1) (by omega) (by omega) i
  rw [mockVerify_sections hs c' (c.instances hs) hbool' hrg']
  have hstate_top : ∀ i, (stateAt hs c' c'.levels).balances i
      = (t.value hs).balances i := by
    intro i
    rw [hlev', hballs, hstates d (le_refl d), pathNodes_getD_last hs t d idx hcomp]
  have hinst : c.instances hs = (compute_leaf hs c.entry).hash ::
      (t.value hs).hash :: List.ofFn ((t.value hs).balances) := by
    rw [MstInclusionCircuit.instances, hroot]
  rw [hinst, hent']
  rw [if_pos (show ((compute_leaf hs c.entry).hash :: (t.value hs).hash ::
      List.ofFn ((t.value hs).balances)).get? 0
      = some (compute_leaf hs c.entry).hash from rfl)]
  have hcond1 : ¬ ((compute_leaf hs c.entry).hash :: (t.value hs).hash ::
      List.ofFn ((t.value hs).balances)).get? 1
      = some (stateAt hs c' c'.levels).hash := by
    intro hcontra
    exact hroot' (Option.some_inj.mp hcontra).symm
  rw [if_neg hcond1]
  have hg2 : ∀ i : Fin K,
      ((compute_leaf hs c.entry).hash :: (t.value hs).hash ::
        List.ofFn ((t.value hs).balances)).get? (2 + i.val)
      = some ((stateAt hs c' c'.levels).balances i) := by
    intro i
    rw [get?_cons_cons_two, getD_ofFn_val, hstate_top i]
  rw [filter_eq_nil_of _ _ fun i _ => by simpa using hg2 i]
  simp only [List.nil_append, List.map_nil, List.append_nil]

/-- C4 counterexample: on the valid tree `tD`, whose first two leaves are
identical entries, flipping the (valid, 0) level-0 path bit to 1 while
leaving everything else unchanged leaves every constraint satisfied —
verification succeeds, so the flip does not make verification fail at the
root binding. -/
theorem c4_swapped_index_counterexample :
    cD.path_indices.get? 0 = some 0 ∧
    cDflip = { cD with path_indices := cD.path_indices.set 0 1 } ∧
    mockVerify hsW 1 cDflip (cD.instances hsW) = [] := by decide

/-- Witness for the amended C4 on the tree `tW`, where the level-0 flip does
change the recomputed root hash. -/
theorem c4_swapped_index_witness :
    (tW.complete 2 ∧ tW.allInRange hsW 1 ∧ 0 < 2 ^ 2 ∧
      circuitOfTree hsW tW 2 0 = some cW0 ∧ ((1 : F) = 0 ∨ (1 : F) = 1) ∧
      (1 : F) ≠ (cW0.stepAt 0).2 ∧
      cW0flip = { cW0 with path_indices := cW0.path_indices.set 0 1 } ∧
      (stateAt hsW cW0flip cW0flip.levels).hash ≠ (tW.value hsW).hash) ∧
    mockVerify hsW 1 cW0flip (cW0.instances hsW) = [Violation.rootHashBinding] :=
  ⟨⟨by decide, by decide, by decide, by decide, by decide, by decide, by decide,
    by decide⟩,
    c4_swapped_index_amended hsW tW 2 0 0 cW0 cW0flip 1 (by decide) (by decide)
      (by decide) (by decide) (by decide) (by decide) (by decide) (by decide)⟩

/-- C2 counterexample: tampering the witness entry's balances (to 1000 and
1000, as the repository test does) after the public inputs are fixed makes
verification fail, but with no range-check violation at any level: the
violations are exactly the leaf-hash binding and the final root bindings,
refuting the part of the claim that every intermediate combine's
range-check copy constraint fails. -/
theorem c2_tampered_balance_counterexample :
    cW2 = { cW0 with entry := eW "a" 1000 1000 } ∧
    mockVerify hsW 2 cW2 (cW0.instances hsW)
      = [Violation.leafHashBinding, Violation.rootHashBinding,
         Violation.rootBalanceBinding 0, Violation.rootBalanceBinding 1] ∧
    Violation.rangeCheck 0 0 ∉ mockVerify hsW 2 cW2 (cW0.instances hsW) ∧
    Violation.rangeCheck 1 0 ∉ mockVerify hsW 2 cW2 (cW0.instances hsW) := by
  decide

/-- C2 (amended): altering the witness entry's balances after the public
inputs are fixed makes verification fail with simultaneous copy-constraint
violations at the leaf-hash binding and at the final root bindings — root
hash and every root balance — and with no boolean, swap, or range-check
violations: the intermediate range checks still pass whenever the tampered
running sums stay within the byte width, as they do for the test's
tampering.  The hypotheses ask that the tampering change the leaf hash, the
recomputed root hash and every root sum. -/
theorem c2_tampered_balance_amended {K B : ℕ} (hs : HashScheme K) (t : MTree K)
    (d idx : ℕ) (c c' : MstInclusionCircuit K) (e' : Entry K)
    (hcomp : t.complete d) (hrange : t.allInRange hs B) (hidx : idx < 2 ^ d)
    (hco : circuitOfTree hs t d idx = some c)
    (hc' : c' = { c with entry := e' })
    (hrg' : ∀ j, j < d → ∀ i, rangeOk B ((stateAt hs c' (j + 1)).balances i))
    (hleaf : (compute_leaf hs e').hash ≠ (compute_leaf hs c.entry).hash)
    (hroot' : (stateAt hs c' d).hash ≠ (t.value hs).hash)
    (hbal : ∀ i, (stateAt hs c' d).balances i ≠ (t.value hs).balances i) :
    mockVerify hs B c' (c.instances hs)
      = [Violation.leafHashBinding] ++ [Violation.rootHashBinding]
        ++ (List.finRange K).map Violation.rootBalanceBinding := by
  obtain ⟨hlev, hroot, hent, hstates, hbits, hblen⟩ := circuit_facts hs hcomp hidx hco
  have hlev' : c'.levels = d := by rw [hc']; exact hlev
  have hbit : ∀ m, (c'.stepAt m).2 = (c.stepAt m).2 := by
    intro m
    rw [hc']
    rfl
  have hbool' : ∀ j, j < c'.levels → (c'.stepAt j).2 = 0 ∨ (c'.stepAt j).2 = 1 := by
    intro j hj
    rw [hlev'] at hj
    rw [hbit]
    exact hbits j hj
  have hrg'' : ∀ j, j < c'.levels → ∀ i,
      rangeOk B ((stateAt hs c' (j + 1)).balances i) := by
    intro j hj i
    rw [hlev'] at hj
    exact hrg' j hj i
  rw [mockVerify_sections hs c' (c.instances hs) hbool' hrg'']
  have hinst : c.instances hs = (compute_leaf hs c.entry).hash ::
      (t.value hs).hash :: List.ofFn ((t.value hs).balances) := by
    rw [MstInclusionCircuit.instances, hroot]
  have hent' : c'.entry = e' := by rw [hc']
  rw [hinst, hent', hlev']
  have hcond0 : ¬ ((compute_leaf hs c.entry).hash :: (t.value hs).hash ::
      List.ofFn ((t.value hs).balances)).get? 0
      = some (compute_leaf hs e').hash := by
    intro hcontra
    exact hleaf (Option.some_inj.mp hcontra).symm
  rw [if_neg hcond0]
  have hcond1 : ¬ ((compute_leaf hs c.entry).hash :: (t.value hs).hash ::
      List.ofFn ((t.value hs).balances)).get? 1
      = some (stateAt hs c' d).hash := by
    intro hcontra
    exact hroot' (Option.some_inj.mp hcontra).symm
  rw [if_neg hcond1]
  have hfil : ((List.finRange K).filter fun (i : Fin K) =>
      decide (¬ ((compute_leaf hs c.entry).hash :: (t.value hs).hash ::
        List.ofFn ((t.value hs).balances)).get? (2 + i.val)
        = some ((stateAt hs c' d).balances i))) = List.finRange K := by
    apply filter_eq_self_of
    intro i _
    have hg : ((compute_leaf hs c.entry).hash :: (t.value hs).hash ::
        List.ofFn ((t.value hs).balances)).get? (2 + i.val)
        = some ((t.value hs).balances i) := by
      rw [get?_cons_cons_two]
      exact getD_ofFn_val _ i
    simp only [decide_eq_true_eq]
    intro hcontra
    rw [hg] at hcontra
    exact hbal i (Option.some_inj.mp hcontra).symm
  rw [hfil]

/-- Witness for the amended C2: the concrete tree `tW`, index 0, with the
entry's balances tampered to (1000, 1000) and byte width 2. -/
theorem c2_tampered_balance_witness :
    mockVerify hsW 2 cW2 (cW0.instances hsW)
      = [Violation.leafHashBinding] ++ [Violation.rootHashBinding]
        ++ (List.finRange 2).map Violation.rootBalanceBinding :=
  c2_tampered_balance_amended hsW tW 2 0 cW0 cW2 (eW "a" 1000 1000)
    (by decide) (by decide) (by decide) (by decide) (by decide) (by decide)
    (by decide) (by decide) (by decide)

/-- C5: the public input vector of an instantiated inclusion circuit has
exactly `2 + K` field elements, ordered as the leaf hash, the root hash and
the `K` root balances, and each equals the corresponding value of the tree
the witness was drawn from. -/
theorem c5_public_input_vector {K : ℕ} (hs : HashScheme K) (t : MTree K)
    (d idx : ℕ) (c : MstInclusionCircuit K)
    (hcomp : t.complete d) (hidx : idx < 2 ^ d)
    (hco : circuitOfTree hs t d idx = some c) :
    (c.instances hs).length = 2 + K ∧
    (c.instances hs).get? 0 = some ((t.pathNodes hs d idx).getD 0 default).hash ∧
    (c.instances hs).get? 1 = some (t.value hs).hash ∧
    ∀ i : Fin K, (c.instances hs).get? (2 + i.val)
      = some ((t.value hs).balances i) := by
  obtain ⟨hlev, hroot, hent, hstates, hbits, hblen⟩ := circuit_facts hs hcomp hidx hco
  obtain ⟨e, he, hh⟩ := pathNodes_head hs t d idx hcomp hidx
  have hee : e = c.entry := by
    rw [hent] at he
    exact (Option.some_inj.mp he).symm
  subst hee
  refine ⟨?_, ?_, ?_, ?_⟩
  · show ((compute_leaf hs c.entry).hash :: c.root.hash ::
      List.ofFn c.root.balances).length = 2 + K
    simp [List.length_ofFn]
    omega
  · show some (compute_leaf hs c.entry).hash = _
    rw [hh]
  · show some c.root.hash = _
    rw [hroot]
  · intro i
    show ((compute_leaf hs c.entry).hash :: c.root.hash ::
      List.ofFn c.root.balances).get? (2 + i.val) = _
    rw [get?_cons_cons_two, getD_ofFn_val, hroot]

/-- Witness for C5: the concrete tree `tW`, user index 0, both assets. -/
theorem c5_public_input_vector_witness :
    (cW0.instances hsW).length = 2 + 2 ∧
    (cW0.instances hsW).get? 0
      = some ((tW.pathNodes hsW 2 0).getD 0 default).hash ∧
    (cW0.instances hsW).get? 1 = some (tW.value hsW).hash ∧
    (cW0.instances hsW).get? (2 + (0 : Fin 2).val)
      = some ((tW.value hsW).balances 0) ∧
    (cW0.instances hsW).get? (2 + (1 : Fin 2).val)
      = some ((tW.value hsW).balances 1) := by
  obtain ⟨h1, h2, h3, h4⟩ :=
    c5_public_input_vector hsW tW 2 0 cW0 (by decide) (by decide) (by decide)
  exact ⟨h1, h2, h3, h4 0, h4 1⟩

/-- C3: with a sibling balance set so that the level's running sum reaches
exactly `2^(8·B) − 1`, that level's own range check still passes (the sum is
the largest in-range value), every higher level through which the overflow
propagates fails its range check for the tampered asset, and the public
root-hash and affected public root-balance bindings fail as well; nothing
else is violated. -/
theorem c3_balance_overflow {K B : ℕ} (hs : HashScheme K) (t : MTree K)
    (d idx jt : ℕ) (a : Fin K) (v : F) (c c' : MstInclusionCircuit K)
    (hcomp : t.complete d) (hrange : t.allInRange hs B) (hidx : idx < 2 ^ d)
    (hco : circuitOfTree hs t d idx = some c)
    (hjt : jt + 1 < d)
    (hc' : c' = { c with path_element_balances :=
        (c.path_element_balances.set jt
          (Function.update ((c.stepAt jt).1.balances) a v)) })
    (hsum : ((stateAt hs c' (jt + 1)).balances a).val = 2 ^ (8 * B) - 1)
    (hup : ∀ m, jt < m → m < d →
      2 ^ (8 * B) ≤ ((stateAt hs c' (m + 1)).balances a).val)
    (hroot' : (stateAt hs c' d).hash ≠ (t.value hs).hash) :
    mockVerify hs B c' (c.instances hs)
      = ((List.range d).filter fun j => decide (jt < j)).map
          (fun j => Violation.rangeCheck j a)
        ++ [Violation.rootHashBinding] ++ [Violation.rootBalanceBinding a] := by
  obtain ⟨hlev, hroot, hent, hstates, hbits, hblen⟩ := circuit_facts hs hcomp hidx hco
  have hent' : c'.entry = c.entry := by rw [hc']
  have hlev' : c'.levels = d := by rw [hc']; exact hlev
  have hstep_ne : ∀ m, m ≠ jt → c'.stepAt m = c.stepAt m := by
    intro m hm
    rw [hc']
    unfold MstInclusionCircuit.stepAt
    simp only []
    rw [get?_set_ne _ _ _ _ fun h => hm h.symm]
  have hbit : ∀ m, (c'.stepAt m).2 = (c.stepAt m).2 := by
    intro m
    rw [hc']
    rfl
  have hbool' : ∀ j, j < c'.levels → (c'.stepAt j).2 = 0 ∨ (c'.stepAt j).2 = 1 := by
    intro j hj
    rw [hlev'] at hj
    rw [hbit]
    exact hbits j hj
  have hsib_jt : ((c'.stepAt jt).1).balances
      = Function.update ((c.stepAt jt).1.balances) a v := by
    rw [hc']
    unfold MstInclusionCircuit.stepAt
    simp only []
    rw [get?_set_self _ _ _ (by omega)]
    rfl
  have hsib_i : ∀ (i : Fin K), i ≠ a → ∀ m,
      ((c'.stepAt m).1).balances i = ((c.stepAt m).1).balances i := by
    intro i hia m
    by_cases hm : m = jt
    · subst hm
      rw [hsib_jt, Function.update_noteq hia]
    · rw [hstep_ne m hm]
  have hstate_le : ∀ m, m ≤ jt → stateAt hs c' m = stateAt hs c m :=
    fun m hm => stateAt_congr hs hent' m fun m' hm' => hstep_ne m' (by omega)
  have hball_ne : ∀ (i : Fin K), i ≠ a → ∀ n,
      (stateAt hs c' n).balances i = (stateAt hs c n).balances i :=
    fun i hia => stateAt_balances_of_sib hs hent' i (hsib_i i hia)
  have hinrange : ∀ m, 0 < m → m ≤ d → ∀ i,
      rangeOk B ((stateAt hs c m).balances i) := by
    intro m hm0 hmd i
    rw [hstates m hmd]
    exact pathNodes_inRange hs B t d idx hcomp hrange m hm0 hmd i
  rw [mockVerify_boolswap hs c' (c.instances hs) hbool']
  have hflat : (List.range c'.levels).flatMap (fun j =>
      ((List.finRange K).filter fun i =>
          decide (¬ rangeOk B ((stateAt hs c' (j + 1)).balances i))).map
        (Violation.rangeCheck j))
      = ((List.range d).filter fun j => decide (jt < j)).map
          (fun j => Violation.rangeCheck j a) := by
    rw [hlev']
    rw [flatMap_eq_of _ _
      (fun j => if decide (jt < j) then [Violation.rangeCheck j a] else []) ?_]
    · exact flatMap_if_singleton _ _ _
    · intro j hj
      dsimp only
      have hjd : j < d := List.mem_range.mp hj
      by_cases hjlt : jt < j
      · rw [if_pos (by simpa using hjlt)]
        have hfs : (List.finRange K).filter
            (fun i => decide (¬ rangeOk B ((stateAt hs c' (j + 1)).balances i)))
            = [a] := by
          apply filter_singleton_of _ a _ (List.nodup_finRange K) (List.mem_finRange a)
          intro i _
          constructor
          · intro hp
            by_contra hia
            have := hball_ne i hia (j + 1)
            rw [decide_eq_true_eq, this] at hp
            exact hp (hinrange (j + 1) (by omega) (by omega) i)
          · intro hi
            subst hi
            rw [decide_eq_true_eq]
            intro hrg
            have := hup j hjlt hjd
            unfold rangeOk at hrg
            omega
        rw [hfs]
        rfl
      · rw [if_neg (by simpa using hjlt)]
        rw [filter_eq_nil_of]
        · rfl
        · intro i _
          rw [Bool.not_eq_true, decide_eq_false_iff_not, not_not]
          by_cases hia : i = a
          · subst hia
            by_cases hje : j = jt
            · subst hje
              unfold rangeOk
              have h1 : (1 : ℕ) ≤ 2 ^ (8 * B) := Nat.one_le_two_pow
              omega
            · have hjle : j + 1 ≤ jt := by omega
              rw [hstate_le (j + 1) hjle]
              exact hinrange (j + 1) (by omega) (by omega) i
          · rw [hball_ne i hia (j + 1)]
            exact hinrange (j + 1) (by omega) (by omega) i
  rw [hflat]
  have hinst : c.instances hs = (compute_leaf hs c.entry).hash ::
      (t.value hs).hash :: List.ofFn ((t.value hs).balances) := by
    rw [MstInclusionCircuit.instances, hroot]
  rw [hinst, hent', hlev']
  rw [if_pos (show ((compute_leaf hs c.entry).hash :: (t.value hs).hash ::
      List.ofFn ((t.value hs).balances)).get? 0
      = some (compute_leaf hs c.entry).hash from rfl)]
  have hcond1 : ¬ ((compute_leaf hs c.entry).hash :: (t.value hs).hash ::
      List.ofFn ((t.value hs).balances)).get? 1
      = some (stateAt hs c' d).hash := by
    intro hcontra
    exact hroot' (Option.some_inj.mp hcontra).symm
  rw [if_neg hcond1]
  have hrootval : ((t.value hs).balances a).val < 2 ^ (8 * B) := by
    have := hinrange d (by omega) (le_refl d) a
    rw [hstates d (le_refl d), pathNodes_getD_last hs t d idx hcomp] at this
    exact this
  have htopval : 2 ^ (8 * B) ≤ ((stateAt hs c' d).balances a).val := by
    have hd1 : jt < d - 1 := by omega
    have := hup (d - 1) hd1 (by omega)
    have hdeq : d - 1 + 1 = d := by omega
    rw [hdeq] at this
    exact this
  have hfb : ((List.finRange K).filter fun (i : Fin K) =>
      decide (¬ ((compute_leaf hs c.entry).hash :: (t.value hs).hash ::
        List.ofFn ((t.value hs).balances)).get? (2 + i.val)
        = some ((stateAt hs c' d).balances i))) = [a] := by
    apply filter_singleton_of _ a _ (List.nodup_finRange K) (List.mem_finRange a)
    intro i _
    have hg : ((compute_leaf hs c.entry).hash :: (t.value hs).hash ::
        List.ofFn ((t.value hs).balances)).get? (2 + i.val)
        = some ((t.value hs).balances i) := by
      rw [get?_cons_cons_two]
      exact getD_ofFn_val _ i
    rw [hg]
    constructor
    · intro hp
      by_contra hia
      rw [decide_eq_true_eq] at hp
      apply hp
      rw [hball_ne i hia d, hstates d (le_refl d),
        pathNodes_getD_last hs t d idx hcomp]
    · intro hi
      subst hi
      rw [decide_eq_true_eq]
      intro hcontra
      have hvv := congrArg ZMod.val (Option.some_inj.mp hcontra)
      omega
  rw [hfb]
  simp only [List.append_nil, List.map_cons, List.map_nil]

/-- Witness for C3: tree `tW`, index 0, the level-0 sibling balance of asset
0 set to 245 with byte width 1, so the level-1 running sum is exactly
`2^8 − 1` and the level-2 sum overflows. -/
theorem c3_balance_overflow_witness :
    mockVerify hsW 1 cW3 (cW0.instances hsW)
      = ((List.range 2).filter fun j => decide (0 < j)).map
          (fun j => Violation.rangeCheck j 0)
        ++ [Violation.rootHashBinding] ++ [Violation.rootBalanceBinding 0] :=
  c3_balance_overflow hsW tW 2 0 0 0 245 cW0 cW3 (by decide) (by decide)
    (by decide) (by decide) (by decide) (by decide) (by decide)
    (by
      intro m h1 h2
      have hm : m = 1 := by omega
      subst hm
      decide)
    (by decide)

/-- C6 (evaluating the code at the failing input): on a snapshot over a
4-entry (depth-2) tree, requesting an inclusion proof for the out-of-range
user index 4 does not report an error to the caller: the internal `unwrap`
of the failed proof generation panics, aborting the call, both directly on
the snapshot and through `Round::get_proof_of_inclusion`. -/
theorem c6_out_of_range_panics :
    Snapshot.generate_proof_of_inclusion envW snapshotW 4 = .panic ∧
    Round.get_proof_of_inclusion envW ⟨1, snapshotW, signerOkW⟩ 4 = .panic := by
  decide

/-- C7: when the signer's submission fails, `dispatch_commitment` propagates
exactly that error to the caller and returns the round with every field —
timestamp, snapshot (including its tree and setup artifacts) and signer —
unchanged, so the caller may retry without rebuilding the snapshot. -/
theorem c7_dispatch_failure_preserves_round {K : ℕ} (r : Round K) (e : String)
    (hfail : r.signer.submit_commitment r.commitment_args = .error e) :
    Round.dispatch_commitment r = (.err e, r) ∧
    (Round.dispatch_commitment r).2.timestamp = r.timestamp ∧
    (Round.dispatch_commitment r).2.snapshot = r.snapshot ∧
    (Round.dispatch_commitment r).2.signer = r.signer := by
  have h : Round.dispatch_commitment r = (.err e, r) := by
    unfold Round.dispatch_commitment
    rw [hfail]
  exact ⟨h, by rw [h], by rw [h], by rw [h]⟩

/-- Witness for C7: a concrete round whose signer rejects every submission
with `errW`. -/
theorem c7_dispatch_failure_witness :
    Round.dispatch_commitment roundFailW = (.err errW, roundFailW) ∧
    (Round.dispatch_commitment roundFailW).2.timestamp = roundFailW.timestamp ∧
    (Round.dispatch_commitment roundFailW).2.snapshot = roundFailW.snapshot ∧
    (Round.dispatch_commitment roundFailW).2.signer = roundFailW.signer :=
  c7_dispatch_failure_preserves_round roundFailW errW rfl

/-- C8: `dispatch_commitment` submits through the signer exactly the tuple
(root hash, per-asset root sums, asset descriptors, timestamp), where the
root hash and each root sum are the canonical integer representatives of
the tree root's field elements — each a value below `2^256`, i.e. one
256-bit word — with the sums listed in asset order, one per asset. -/
theorem c8_dispatch_commitment_args {K : ℕ} (r : Round K) :
    Round.dispatch_commitment r
      = (match r.signer.submit_commitment r.commitment_args with
          | .error e => (.err e, r)
          | .ok _ => (.ok (), r)) ∧
    r.commitment_args.mst_root = (r.snapshot.mst.root.hash).val ∧
    r.commitment_args.root_sums.length = K ∧
    (∀ i : Fin K, r.commitment_args.root_sums.get? i.val
      = some ((r.snapshot.mst.root.balances i).val)) ∧
    r.commitment_args.assets = r.snapshot.assets_state ∧
    r.commitment_args.timestamp = r.timestamp ∧
    r.commitment_args.mst_root < 2 ^ 256 ∧
    (∀ x ∈ r.commitment_args.root_sums, x < 2 ^ 256) := by
  have hP : P < 2 ^ 256 := by norm_num [P]
  refine ⟨rfl, rfl, ?_, ?_, rfl, rfl, ?_, ?_⟩
  · show ((List.ofFn r.snapshot.mst.root.balances).map fpToU256).length = K
    simp
  · intro i
    show ((List.ofFn r.snapshot.mst.root.balances).map fpToU256).get? i.val = _
    rw [List.get?_map, getD_ofFn_val]
    rfl
  · show fpToU256 r.snapshot.mst.root.hash < 2 ^ 256
    have h := ZMod.val_lt r.snapshot.mst.root.hash
    unfold fpToU256
    omega
  · intro x hx
    have hx' : x ∈ (List.ofFn r.snapshot.mst.root.balances).map fpToU256 := hx
    rw [List.mem_map] at hx'
    obtain ⟨y, _, rfl⟩ := hx'
    have h := ZMod.val_lt y
    unfold fpToU256
    omega

/-- C9: `Snapshot::new` determines the setup size `k` solely by splitting
the params path on `-` and parsing the final segment as an unsigned 32-bit
integer, builds the setup artifacts with that `k`, and, when the final
segment is not a decimal number, panics instead of returning a snapshot. -/
theorem c9_k_from_params_path {K : ℕ} (env : BackendEnv K) (mst : TreeObj K)
    (acsv ppath : String) (assets : List Asset) (lp : List Char)
    (hcsv : env.parse_asset_csv acsv = some assets)
    (hlast : (rustSplit '-' ppath.data).getLast? = some lp) :
    (parseU32 lp = none → Snapshot.new env mst acsv ppath = .panic) ∧
    (∀ k, parseU32 lp = some k →
      Snapshot.new env mst acsv ppath
        = match env.generate_setup_artifacts k ppath with
          | none => .panic
          | some arts => .ok ⟨mst, assets, arts⟩) := by
  constructor
  · intro hna
    unfold Snapshot.new
    simp only [hcsv, hlast, hna]
  · intro k hk
    unfold Snapshot.new
    simp only [hcsv, hlast, hk]

/-- Witness for C9: with always-succeeding collaborators, the path
`ptau/hermez-raw-11` yields the snapshot built with `k = 11`, and the path
`ptau/hermez-raw`, whose final segment is not a number, panics. -/
theorem c9_k_from_params_path_witness :
    Snapshot.new envW treeObjW csvPathW paramsPathW
      = .ok ⟨treeObjW, assetsW, (11, 0, 0)⟩ ∧
    Snapshot.new envW treeObjW csvPathW paramsBadW = .panic := by
  constructor
  · have h := (c9_k_from_params_path envW treeObjW csvPathW paramsPathW assetsW
      ['1', '1'] rfl (by decide)).2 11 (by decide)
    rw [h]
    rfl
  · exact (c9_k_from_params_path envW treeObjW csvPathW paramsBadW assetsW
      ['r', 'a', 'w'] rfl (by decide)).1 (by decide)

/-- C10: `Round::new`, `Round::get_proof_of_inclusion` and
`Snapshot::generate_proof_of_inclusion` never return their declared error
variant: whatever the collaborators and inputs do, every internal failure
(CSV parsing, setup generation, proof generation, entry lookup) terminates
in a panic, so any value actually returned is `Ok`. -/
theorem c10_no_err_returns {K : ℕ} (env : BackendEnv K) (signer : SummaSigner)
    (mst : TreeObj K) (acsv ppath : String) (ts : ℕ) (s : Snapshot K)
    (r : Round K) (idx : ℕ) :
    (Round.new env signer mst acsv ppath ts).isErr = false ∧
    (Snapshot.generate_proof_of_inclusion env s idx).isErr = false ∧
    (Round.get_proof_of_inclusion env r idx).isErr = false := by
  refine ⟨?_, ?_, ?_⟩
  · unfold Round.new
    rcases h : Snapshot.new env mst acsv ppath with a | e | _ <;>
      simp [Outcome.isErr]
  · unfold Snapshot.generate_proof_of_inclusion
    rcases h1 : s.mst.generate_proof idx with _ | p
    · simp [Outcome.isErr]
    · rcases h2 : s.mst.get_entry idx with _ | e <;> simp [Outcome.isErr]
  · unfold Round.get_proof_of_inclusion
    rcases h : Snapshot.generate_proof_of_inclusion env r.snapshot idx
      with a | e | _ <;> simp [Outcome.isErr]
